import Mathlib

/-!
Verification of the 1D Kohonen self-organizing map implementation in
`machine_learning/kohonen_som.c`.

The C code's `double` arithmetic is modelled over `ℚ`; sample vectors and
weight matrices are lists (`List ℚ`, `List (List ℚ)`); the C `int` radius is
modelled as `ℤ`.  Each Lean definition below mirrors one function (or one
loop) of the C source.
-/

namespace KohonenSom

/-- Squared Euclidean distance of a weight row `w` from the sample `x`:
the inner `for k` loop of step 1 of `update_weights`
(`D[j] += (W[j][k] - x[k]) * (W[j][k] - x[k])`). -/
def sqDist (w x : List ℚ) : ℚ :=
  (List.zipWith (fun wk xk => (wk - xk) * (wk - xk)) w x).sum

/-- Step 1 of `update_weights`: the distance buffer `D`, one squared
distance per output node (the outer `for j` loop). -/
def evaluate_distances (x : List ℚ) (W : List (List ℚ)) : List ℚ :=
  W.map (fun w => sqDist w x)

/-- The loop body of `get_min_1d`, scanning values with their index `i`;
the accumulator `none` models the initial `val = INFINITY` state (any
rational compares `<` against it, and `idx` is not yet set). -/
def min_scan : ℕ → Option (ℕ × ℚ) → List ℚ → Option (ℕ × ℚ)
  | _, acc, [] => acc
  | i, acc, a :: rest =>
      min_scan (i + 1)
        (match acc with
         | none => some (i, a)
         | some (idx, val) => if a < val then some (i, a) else some (idx, val))
        rest

/-- `get_min_1d`: forward linear scan for the minimum value and its index,
strict `<` comparison, starting from `val = INFINITY`. -/
def get_min_1d (X : List ℚ) : Option (ℕ × ℚ) :=
  min_scan 0 none X

/-- Step 3a of `update_weights`:
`int from_node = 0 > (d_min_idx - R) ? 0 : d_min_idx - R;`. -/
def from_node (d_min_idx : ℕ) (R : ℤ) : ℤ :=
  if 0 > (d_min_idx : ℤ) - R then 0 else (d_min_idx : ℤ) - R

/-- Step 3a of `update_weights`:
`int to_node = num_out < (d_min_idx + R + 1) ? num_out : d_min_idx + R + 1;`. -/
def to_node (num_out : ℕ) (d_min_idx : ℕ) (R : ℤ) : ℤ :=
  if (num_out : ℤ) < (d_min_idx : ℤ) + R + 1 then (num_out : ℤ)
  else (d_min_idx : ℤ) + R + 1

/-- The inner `for k` loop of step 3b: `W[j][k] += alpha * (x[k] - W[j][k])`. -/
def update_row (alpha : ℚ) (x w : List ℚ) : List ℚ :=
  List.zipWith (fun wk xk => wk + alpha * (xk - wk)) w x

/-- The `for j` loop of step 3b: row `j` (counted from the loop index `j0`)
is rewritten by `update_row` exactly when `lo ≤ j < hi`. -/
def update_rows (x : List ℚ) (alpha : ℚ) (lo hi : ℤ) : ℕ → List (List ℚ) → List (List ℚ)
  | _, [] => []
  | j, w :: rest =>
      (if lo ≤ (j : ℤ) ∧ (j : ℤ) < hi then update_row alpha x w else w)
        :: update_rows x alpha lo hi (j + 1) rest

/-- Step 3 of `update_weights` (lines 117-128): clamp the neighborhood
window around the BMU and pull every row inside it toward `x`. -/
def update_neighborhood (x : List ℚ) (W : List (List ℚ)) (d_min_idx : ℕ)
    (R : ℤ) (alpha : ℚ) : List (List ℚ) :=
  update_rows x alpha (from_node d_min_idx R) (to_node W.length d_min_idx R) 0 W

/-- `update_weights`: distances, BMU search, neighborhood update.  The
`none` branch corresponds to `num_out = 0`, where the C code's `d_min_idx`
stays uninitialized but the update loop has an empty range anyway. -/
def update_weights (x : List ℚ) (W : List (List ℚ)) (alpha : ℚ) (R : ℤ) :
    List (List ℚ) :=
  match get_min_1d (evaluate_distances x W) with
  | none => W
  | some (d_min_idx, _) => update_neighborhood x W d_min_idx R alpha

/-- One outer pass of `kohonen_som_tracer`: the `for sample` loop, visiting
the samples of `X` in input order. -/
def tracer_pass (X : List (List ℚ)) (W : List (List ℚ)) (alpha : ℚ) (R : ℤ) :
    List (List ℚ) :=
  X.foldl (fun Wc x => update_weights x Wc alpha R) W

/-- The radius decay at the end of an outer pass:
`if (iter % 10 == 0 && R > 1) R--;`. -/
def radius_step (iter : ℕ) (R : ℤ) : ℤ :=
  if iter % 10 = 0 ∧ R > 1 then R - 1 else R

/-- The mutable state of `kohonen_som_tracer`'s outer loop. -/
structure SomState where
  W : List (List ℚ)
  R : ℤ
  iter : ℕ
  alpha : ℚ
  deriving Repr, DecidableEq

/-- One iteration of the outer loop: process every sample, decay the
radius, then `alpha -= 0.01, iter++`. -/
def tracer_step (X : List (List ℚ)) (s : SomState) : SomState :=
  { W := tracer_pass X s.W s.alpha s.R
    R := radius_step s.iter s.R
    iter := s.iter + 1
    alpha := s.alpha - 1 / 100 }

/-- The outer `for (; alpha > alpha_min; ...)` loop, driven by a fuel that
bounds the number of iterations; the guard is re-checked before every
iteration exactly as in the source. -/
def tracer_run (X : List (List ℚ)) (alpha_min : ℚ) : ℕ → SomState → SomState
  | 0, s => s
  | fuel + 1, s =>
      if s.alpha > alpha_min then tracer_run X alpha_min fuel (tracer_step X s)
      else s

/-- Fuel sufficient for the outer loop: each iteration lowers
`(alpha - alpha_min) * 100` by exactly 1, and the guard fails once that
quantity is `≤ 0`, so `⌈(alpha - alpha_min) * 100⌉` iterations always
reach the exit condition. -/
def outer_fuel (alpha alpha_min : ℚ) : ℕ :=
  (⌈(alpha - alpha_min) * 100⌉ : ℤ).toNat

/-- Initial loop state of `kohonen_som_tracer`:
`int R = num_out >> 2, iter = 0; double alpha = 1.f;`. -/
def init_state (W : List (List ℚ)) : SomState :=
  { W := W, R := ((W.length >>> 2 : ℕ) : ℤ), iter := 0, alpha := 1 }

/-- `kohonen_som_tracer`: run the annealing loop from `alpha = 1` until
`alpha ≤ alpha_min`, returning the final loop state (final weights in
`.W`, number of executed outer passes in `.iter`). -/
def kohonen_som_tracer (X : List (List ℚ)) (W : List (List ℚ))
    (alpha_min : ℚ) : SomState :=
  tracer_run X alpha_min (outer_fuel 1 alpha_min) (init_state W)

/-- Number of outer passes the fuelled loop executes, as a function of the
stopping threshold, the fuel and the starting `alpha` only. -/
def numPasses (alpha_min : ℚ) : ℕ → ℚ → ℕ
  | 0, _ => 0
  | fuel + 1, alpha =>
      if alpha > alpha_min then numPasses alpha_min fuel (alpha - 1 / 100) + 1
      else 0

/-! ### Basic lemmas about the distance evaluator -/

theorem sqDist_nil_left (x : List ℚ) : sqDist [] x = 0 := rfl

theorem sqDist_nil_right (w : List ℚ) : sqDist w [] = 0 := by
  simp [sqDist]

theorem sqDist_cons (a b : ℚ) (w x : List ℚ) :
    sqDist (a :: w) (b :: x) = (a - b) * (a - b) + sqDist w x := by
  simp [sqDist]

theorem sqDist_eq_sum : ∀ (w x : List ℚ), w.length = x.length →
    sqDist w x = ∑ k in Finset.range x.length, (w.getD k 0 - x.getD k 0) ^ 2
  | [], [], _ => by simp [sqDist]
  | [], _ :: _, h => by simp at h
  | _ :: _, [], h => by simp at h
  | a :: w, b :: x, h => by
    have ih := sqDist_eq_sum w x (by simpa using h)
    simp only [sqDist_cons, List.length_cons]
    rw [Finset.sum_range_succ']
    simp only [List.getD_cons_succ, List.getD_cons_zero]
    rw [← ih]
    ring

theorem evaluate_distances_length (x : List ℚ) (W : List (List ℚ)) :
    (evaluate_distances x W).length = W.length := by
  simp [evaluate_distances]

theorem evaluate_distances_getD (x : List ℚ) :
    ∀ (W : List (List ℚ)) (j : ℕ), j < W.length →
      (evaluate_distances x W).getD j 0 = sqDist (W.getD j []) x
  | [], j, hj => by simp at hj
  | w :: W, 0, _ => by simp [evaluate_distances]
  | w :: W, j + 1, hj => by
    simp only [evaluate_distances, List.map_cons, List.getD_cons_succ]
    exact evaluate_distances_getD x W j (by simpa using hj)

/-! ### Characterization of the BMU scan -/

theorem min_scan_spec (l : List ℚ) : ∀ (i idx : ℕ) (val : ℚ),
    ∃ idx' val', min_scan i (some (idx, val)) l = some (idx', val') ∧
      ((idx' = idx ∧ val' = val ∧ ∀ m < l.length, val ≤ l.getD m 0) ∨
       ∃ m, m < l.length ∧ idx' = i + m ∧ val' = l.getD m 0 ∧ val' < val ∧
         (∀ n < l.length, val' ≤ l.getD n 0) ∧ ∀ n < m, val' < l.getD n 0) := by
  induction l with
  | nil =>
    intro i idx val
    exact ⟨idx, val, rfl, Or.inl ⟨rfl, rfl, by simp⟩⟩
  | cons a rest ih =>
    intro i idx val
    have key : min_scan i (some (idx, val)) (a :: rest)
        = min_scan (i + 1) (if a < val then some (i, a) else some (idx, val)) rest := rfl
    by_cases hav : a < val
    · obtain ⟨idx', val', heq, hbr⟩ := ih (i + 1) i a
      refine ⟨idx', val', by rw [key, if_pos hav]; exact heq, Or.inr ?_⟩
      rcases hbr with ⟨h1, h2, h3⟩ | ⟨m, hm, h1, h2, h3, h4, h5⟩
      · subst h1; subst h2
        refine ⟨0, by simp, by omega, by simp, hav, ?_, ?_⟩
        · intro n hn
          cases n with
          | zero => simp
          | succ k => simpa using h3 k (by simpa using hn)
        · intro n hn
          simp at hn
      · subst h1; subst h2
        refine ⟨m + 1, by simp only [List.length_cons]; omega, by omega, by simp,
          lt_trans h3 hav, ?_, ?_⟩
        · intro n hn
          cases n with
          | zero => simpa using le_of_lt h3
          | succ k => simpa using h4 k (by simpa using hn)
        · intro n hn
          cases n with
          | zero => simpa using h3
          | succ k => simpa using h5 k (by omega)
    · obtain ⟨idx', val', heq, hbr⟩ := ih (i + 1) idx val
      have hva : val ≤ a := le_of_not_lt hav
      refine ⟨idx', val', by rw [key, if_neg hav]; exact heq, ?_⟩
      rcases hbr with ⟨h1, h2, h3⟩ | ⟨m, hm, h1, h2, h3, h4, h5⟩
      · subst h1; subst h2
        refine Or.inl ⟨rfl, rfl, ?_⟩
        intro n hn
        cases n with
        | zero => simpa using hva
        | succ k => simpa using h3 k (by simpa using hn)
      · subst h1; subst h2
        refine Or.inr ⟨m + 1, by simp only [List.length_cons]; omega, by omega, by simp,
          h3, ?_, ?_⟩
        · intro n hn
          cases n with
          | zero => simpa using le_of_lt (lt_of_lt_of_le h3 hva)
          | succ k => simpa using h4 k (by simpa using hn)
        · intro n hn
          cases n with
          | zero => simpa using lt_of_lt_of_le h3 hva
          | succ k => simpa using h5 k (by omega)

/-- Full specification of `get_min_1d` on a nonempty vector: it returns the
minimum value together with the lowest index attaining it. -/
theorem get_min_1d_spec (D : List ℚ) (hD : 1 ≤ D.length) :
    ∃ idx val, get_min_1d D = some (idx, val) ∧ idx < D.length ∧
      D.getD idx 0 = val ∧ (∀ j < D.length, val ≤ D.getD j 0) ∧
      ∀ j < idx, val < D.getD j 0 := by
  match D with
  | [] => simp at hD
  | d :: rest =>
    have key : get_min_1d (d :: rest) = min_scan 1 (some (0, d)) rest := rfl
    obtain ⟨idx', val', heq, hbr⟩ := min_scan_spec rest 1 0 d
    refine ⟨idx', val', key.trans heq, ?_⟩
    rcases hbr with ⟨h1, h2, h3⟩ | ⟨m, hm, h1, h2, h3, h4, h5⟩
    · subst h1; subst h2
      refine ⟨by simp, by simp, ?_, ?_⟩
      · intro j hj
        cases j with
        | zero => simp
        | succ k => simpa using h3 k (by simpa using hj)
      · intro j hj
        simp at hj
    · subst h1; subst h2
      have hidx : 1 + m = m + 1 := by omega
      refine ⟨by simp only [List.length_cons]; omega, by rw [hidx]; simp, ?_, ?_⟩
      · intro j hj
        cases j with
        | zero => simpa using le_of_lt h3
        | succ k => simpa using h4 k (by simpa using hj)
      · intro j hj
        cases j with
        | zero => simpa using h3
        | succ k => simpa using h5 k (by omega)

/-! ### Claim theorems C1 and C2 -/

/-- C1: for a sample `x` of length `num_features` and a weight matrix `W`
of `num_out` rows (each of length `num_features`), the distance-evaluation
step produces a vector `D` of length `num_out` with
`D[j] = Σ_k (W[j][k] - x[k])²` for every `j < num_out`. -/
theorem som_C1 (x : List ℚ) (W : List (List ℚ))
    (hrow : ∀ j < W.length, (W.getD j []).length = x.length) :
    (evaluate_distances x W).length = W.length ∧
    ∀ j < W.length, (evaluate_distances x W).getD j 0 =
      ∑ k in Finset.range x.length, ((W.getD j []).getD k 0 - x.getD k 0) ^ 2 := by
  refine ⟨evaluate_distances_length x W, ?_⟩
  intro j hj
  rw [evaluate_distances_getD x W j hj, sqDist_eq_sum _ _ (hrow j hj)]

/-- Witness for C1 at a concrete input. -/
theorem som_C1_witness :
    (∀ j < ([[(0 : ℚ), 0], [3, 4]] : List (List ℚ)).length,
      (([[(0 : ℚ), 0], [3, 4]] : List (List ℚ)).getD j []).length
        = ([(1 : ℚ), 2] : List ℚ).length) ∧
    ((evaluate_distances [(1 : ℚ), 2] [[0, 0], [3, 4]]).length
        = ([[(0 : ℚ), 0], [3, 4]] : List (List ℚ)).length ∧
     ∀ j < ([[(0 : ℚ), 0], [3, 4]] : List (List ℚ)).length,
       (evaluate_distances [(1 : ℚ), 2] [[0, 0], [3, 4]]).getD j 0 =
         ∑ k in Finset.range ([(1 : ℚ), 2] : List ℚ).length,
           ((([[(0 : ℚ), 0], [3, 4]] : List (List ℚ)).getD j []).getD k 0
             - ([(1 : ℚ), 2] : List ℚ).getD k 0) ^ 2) :=
  ⟨by decide, som_C1 [1, 2] [[0, 0], [3, 4]] (by decide)⟩

/-- C2: on a vector of length at least 1, `get_min_1d` returns the minimum
value and the lowest index attaining it (forward scan with strict `<`
keeps the first of several equal minima). -/
theorem som_C2 (D : List ℚ) (hD : 1 ≤ D.length) :
    ∃ idx val, get_min_1d D = some (idx, val) ∧ idx < D.length ∧
      D.getD idx 0 = val ∧ (∀ j < D.length, val ≤ D.getD j 0) ∧
      ∀ j < idx, val < D.getD j 0 :=
  get_min_1d_spec D hD

/-- Witness for C2 on a vector with a duplicated minimum. -/
theorem som_C2_witness :
    1 ≤ ([3, 1, 2, 1] : List ℚ).length ∧
    (∃ idx val, get_min_1d ([3, 1, 2, 1] : List ℚ) = some (idx, val) ∧
      idx < ([3, 1, 2, 1] : List ℚ).length ∧
      ([3, 1, 2, 1] : List ℚ).getD idx 0 = val ∧
      (∀ j < ([3, 1, 2, 1] : List ℚ).length, val ≤ ([3, 1, 2, 1] : List ℚ).getD j 0) ∧
      ∀ j < idx, val < ([3, 1, 2, 1] : List ℚ).getD j 0) :=
  ⟨by decide, som_C2 [3, 1, 2, 1] (by decide)⟩

/-! ### Lemmas about the neighborhood update -/

theorem from_node_eq_max (bmu : ℕ) (R : ℤ) :
    from_node bmu R = max 0 ((bmu : ℤ) - R) := by
  unfold from_node
  rcases lt_or_le ((bmu : ℤ) - R) 0 with h | h
  · rw [if_pos (by omega), max_eq_left (by omega)]
  · rw [if_neg (by omega), max_eq_right h]

theorem to_node_eq_min (num_out bmu : ℕ) (R : ℤ) :
    to_node num_out bmu R = min (num_out : ℤ) ((bmu : ℤ) + R + 1) := by
  unfold to_node
  rcases lt_or_le ((num_out : ℤ)) ((bmu : ℤ) + R + 1) with h | h
  · rw [if_pos h, min_eq_left (by omega)]
  · rw [if_neg (by omega), min_eq_right h]

theorem update_rows_length (x : List ℚ) (alpha : ℚ) (lo hi : ℤ) :
    ∀ (j : ℕ) (l : List (List ℚ)), (update_rows x alpha lo hi j l).length = l.length := by
  intro j l
  induction l generalizing j with
  | nil => rfl
  | cons w rest ih => simp [update_rows, ih]

theorem update_rows_getD (x : List ℚ) (alpha : ℚ) (lo hi : ℤ) :
    ∀ (l : List (List ℚ)) (j0 j : ℕ), j < l.length →
      (update_rows x alpha lo hi j0 l).getD j [] =
        if lo ≤ ((j0 + j : ℕ) : ℤ) ∧ ((j0 + j : ℕ) : ℤ) < hi
        then update_row alpha x (l.getD j [])
        else l.getD j [] := by
  intro l
  induction l with
  | nil => intro j0 j hj; simp at hj
  | cons w rest ih =>
    intro j0 j hj
    cases j with
    | zero => simp [update_rows]
    | succ n =>
      have hn : j0 + 1 + n = j0 + (n + 1) := by omega
      simp only [update_rows, List.getD_cons_succ]
      rw [ih (j0 + 1) n (by simpa using hj), hn]

theorem update_row_getD (alpha : ℚ) :
    ∀ (w x : List ℚ) (k : ℕ), k < w.length → k < x.length →
      (update_row alpha x w).getD k 0
        = w.getD k 0 + alpha * (x.getD k 0 - w.getD k 0)
  | [], _, k, hk, _ => by simp at hk
  | _ :: _, [], k, _, hk => by simp at hk
  | a :: w, b :: x, 0, _, _ => by simp [update_row]
  | a :: w, b :: x, k + 1, hkw, hkx => by
    simp only [update_row, List.zipWith_cons_cons, List.getD_cons_succ]
    exact update_row_getD alpha w x k (by simpa using hkw) (by simpa using hkx)

theorem update_neighborhood_getD (x : List ℚ) (W : List (List ℚ)) (bmu : ℕ)
    (R : ℤ) (alpha : ℚ) (j : ℕ) (hj : j < W.length) :
    (update_neighborhood x W bmu R alpha).getD j [] =
      if from_node bmu R ≤ (j : ℤ) ∧ (j : ℤ) < to_node W.length bmu R
      then update_row alpha x (W.getD j [])
      else W.getD j [] := by
  unfold update_neighborhood
  rw [update_rows_getD x alpha _ _ W 0 j hj]
  norm_num

/-! ### Claim theorems C3, C4 and C8 -/

/-- C3: for a BMU index `bmu < num_out`, radius `R ≥ 0` and learning rate
`alpha ∈ (0,1]`, every node `j` in the window
`[max(0, bmu-R), min(num_out, bmu+R+1))` has each weight `W[j][k]` replaced
by `W[j][k] + alpha * (x[k] - W[j][k]) = (1-alpha)*W[j][k] + alpha*x[k]`. -/
theorem som_C3 (x : List ℚ) (W : List (List ℚ)) (bmu : ℕ) (R : ℤ) (alpha : ℚ)
    (hbmu : bmu < W.length) (hR : 0 ≤ R) (halpha0 : 0 < alpha) (halpha1 : alpha ≤ 1)
    (j : ℕ) (hj : j < W.length)
    (hjlo : max 0 ((bmu : ℤ) - R) ≤ (j : ℤ))
    (hjhi : (j : ℤ) < min (W.length : ℤ) ((bmu : ℤ) + R + 1))
    (k : ℕ) (hk : k < x.length) (hrow : (W.getD j []).length = x.length) :
    ((update_neighborhood x W bmu R alpha).getD j []).getD k 0
      = (W.getD j []).getD k 0 + alpha * (x.getD k 0 - (W.getD j []).getD k 0) ∧
    ((update_neighborhood x W bmu R alpha).getD j []).getD k 0
      = (1 - alpha) * (W.getD j []).getD k 0 + alpha * x.getD k 0 := by
  have hwin : from_node bmu R ≤ (j : ℤ) ∧ (j : ℤ) < to_node W.length bmu R := by
    rw [from_node_eq_max, to_node_eq_min]
    exact ⟨hjlo, hjhi⟩
  have hupd : ((update_neighborhood x W bmu R alpha).getD j []).getD k 0
      = (W.getD j []).getD k 0 + alpha * (x.getD k 0 - (W.getD j []).getD k 0) := by
    rw [update_neighborhood_getD x W bmu R alpha j hj, if_pos hwin]
    exact update_row_getD alpha (W.getD j []) x k (by omega) hk
  exact ⟨hupd, by rw [hupd]; ring⟩

/-- Witness for C3 at a concrete input. -/
theorem som_C3_witness :
    0 < ([[(0 : ℚ)]] : List (List ℚ)).length ∧ (0 : ℤ) ≤ 0 ∧
    (0 : ℚ) < 1 / 2 ∧ (1 / 2 : ℚ) ≤ 1 ∧
    max 0 ((0 : ℤ) - 0) ≤ (0 : ℤ) ∧
    ((0 : ℕ) : ℤ) < min ((([[(0 : ℚ)]] : List (List ℚ)).length : ℕ) : ℤ) ((0 : ℤ) + 0 + 1) ∧
    0 < ([(2 : ℚ)] : List ℚ).length ∧
    (([[(0 : ℚ)]] : List (List ℚ)).getD 0 []).length = ([(2 : ℚ)] : List ℚ).length ∧
    (((update_neighborhood [(2 : ℚ)] [[0]] 0 0 (1 / 2)).getD 0 []).getD 0 0
      = (([[(0 : ℚ)]] : List (List ℚ)).getD 0 []).getD 0 0
        + (1 / 2) * (([(2 : ℚ)] : List ℚ).getD 0 0
            - (([[(0 : ℚ)]] : List (List ℚ)).getD 0 []).getD 0 0) ∧
     ((update_neighborhood [(2 : ℚ)] [[0]] 0 0 (1 / 2)).getD 0 []).getD 0 0
      = (1 - 1 / 2) * (([[(0 : ℚ)]] : List (List ℚ)).getD 0 []).getD 0 0
        + (1 / 2) * ([(2 : ℚ)] : List ℚ).getD 0 0) :=
  ⟨by decide, by decide, by norm_num, by norm_num, by decide, by decide, by decide, by decide,
   som_C3 [2] [[0]] 0 0 (1 / 2) (by decide) (by decide) (by norm_num) (by norm_num)
     0 (by decide) (by decide) (by decide) 0 (by decide) (by decide)⟩

/-- C4: a neighborhood update leaves every row outside the clamped window
`[max(0, bmu-R), min(num_out, bmu+R+1))` exactly equal to its previous
value, and preserves the number of rows. -/
theorem som_C4 (x : List ℚ) (W : List (List ℚ)) (bmu : ℕ) (R : ℤ) (alpha : ℚ) :
    (update_neighborhood x W bmu R alpha).length = W.length ∧
    ∀ j < W.length,
      ((j : ℤ) < max 0 ((bmu : ℤ) - R) ∨ min (W.length : ℤ) ((bmu : ℤ) + R + 1) ≤ (j : ℤ)) →
      (update_neighborhood x W bmu R alpha).getD j [] = W.getD j [] := by
  refine ⟨update_rows_length x alpha _ _ 0 W, ?_⟩
  intro j hj hout
  rw [update_neighborhood_getD x W bmu R alpha j hj, if_neg ?_]
  rw [from_node_eq_max, to_node_eq_min]
  rcases hout with h | h
  · intro hc; omega
  · intro hc; omega

/-- Witness for C4 at a concrete input: the second row is outside the
window around BMU 0 with radius 0. -/
theorem som_C4_witness :
    (update_neighborhood [(2 : ℚ)] [[0], [5]] 0 0 (1 / 2)).length
        = ([[(0 : ℚ)], [5]] : List (List ℚ)).length ∧
    ∀ j < ([[(0 : ℚ)], [5]] : List (List ℚ)).length,
      ((j : ℤ) < max 0 ((0 : ℤ) - 0)
        ∨ min ((([[(0 : ℚ)], [5]] : List (List ℚ)).length : ℕ) : ℤ) ((0 : ℤ) + 0 + 1) ≤ (j : ℤ)) →
      (update_neighborhood [(2 : ℚ)] [[0], [5]] 0 0 (1 / 2)).getD j []
        = ([[(0 : ℚ)], [5]] : List (List ℚ)).getD j [] :=
  som_C4 [2] [[0], [5]] 0 0 (1 / 2)

/-- C8: with `num_out ≥ 1` and `R ≥ 0`, the BMU index returned by the scan
is in `[0, num_out)`, the window bounds are clamped to
`0 ≤ from_node ≤ bmu < to_node ≤ num_out`, and `update_weights` keeps the
matrix at `num_out` rows — no out-of-range access is reachable. -/
theorem som_C8 (x : List ℚ) (W : List (List ℚ)) (alpha : ℚ) (R : ℤ)
    (hW : 1 ≤ W.length) (hR : 0 ≤ R) :
    ∃ bmu val, get_min_1d (evaluate_distances x W) = some (bmu, val) ∧
      bmu < W.length ∧
      0 ≤ from_node bmu R ∧ from_node bmu R ≤ (bmu : ℤ) ∧
      (bmu : ℤ) < to_node W.length bmu R ∧ to_node W.length bmu R ≤ (W.length : ℤ) ∧
      (update_weights x W alpha R).length = W.length := by
  obtain ⟨bmu, val, heq, hbmu, -, -, -⟩ :=
    get_min_1d_spec (evaluate_distances x W) (by rw [evaluate_distances_length]; exact hW)
  rw [evaluate_distances_length] at hbmu
  refine ⟨bmu, val, heq, hbmu, ?_, ?_, ?_, ?_, ?_⟩
  · rw [from_node_eq_max]; omega
  · rw [from_node_eq_max]; omega
  · rw [to_node_eq_min]; omega
  · rw [to_node_eq_min]; omega
  · unfold update_weights
    rw [heq]
    exact update_rows_length x alpha _ _ 0 W

/-- Witness for C8 at a concrete input. -/
theorem som_C8_witness :
    1 ≤ ([[(0 : ℚ)], [5]] : List (List ℚ)).length ∧ (0 : ℤ) ≤ 1 ∧
    (∃ bmu val, get_min_1d (evaluate_distances [(2 : ℚ)] [[0], [5]]) = some (bmu, val) ∧
      bmu < ([[(0 : ℚ)], [5]] : List (List ℚ)).length ∧
      0 ≤ from_node bmu 1 ∧ from_node bmu 1 ≤ (bmu : ℤ) ∧
      (bmu : ℤ) < to_node ([[(0 : ℚ)], [5]] : List (List ℚ)).length bmu 1 ∧
      to_node ([[(0 : ℚ)], [5]] : List (List ℚ)).length bmu 1
        ≤ ((([[(0 : ℚ)], [5]] : List (List ℚ)).length : ℕ) : ℤ) ∧
      (update_weights [(2 : ℚ)] [[0], [5]] (1 / 2) 1).length
        = ([[(0 : ℚ)], [5]] : List (List ℚ)).length) :=
  ⟨by decide, by decide, som_C8 [2] [[0], [5]] (1 / 2) 1 (by decide) (by decide)⟩

/-! ### Algebra of a single row update -/

theorem sqDist_nonneg : ∀ (w x : List ℚ), 0 ≤ sqDist w x
  | [], _ => le_refl 0
  | _ :: _, [] => by rw [sqDist_nil_right]
  | a :: w, b :: x => by
    rw [sqDist_cons]
    have h := sqDist_nonneg w x
    nlinarith [mul_self_nonneg (a - b)]

theorem sqDist_self : ∀ x : List ℚ, sqDist x x = 0
  | [] => rfl
  | a :: x => by rw [sqDist_cons, sqDist_self x]; ring

theorem sqDist_eq_zero_iff : ∀ (w x : List ℚ), w.length = x.length →
    (sqDist w x = 0 ↔ w = x)
  | [], [], _ => by simp [sqDist]
  | [], _ :: _, h => by simp at h
  | _ :: _, [], h => by simp at h
  | a :: w, b :: x, h => by
    have ih := sqDist_eq_zero_iff w x (by simpa using h)
    rw [sqDist_cons]
    constructor
    · intro hz
      have h1 : 0 ≤ (a - b) * (a - b) := mul_self_nonneg _
      have h2 : 0 ≤ sqDist w x := sqDist_nonneg w x
      have ha : (a - b) * (a - b) = 0 := by linarith
      have hb : sqDist w x = 0 := by linarith
      have hab : a = b := by
        have := mul_self_eq_zero.mp ha
        linarith
      rw [hab, ih.mp hb]
    · intro he
      obtain ⟨h1, h2⟩ := List.cons_eq_cons.mp he
      rw [h1, h2, sqDist_self]
      ring

theorem update_row_self (alpha : ℚ) (x : List ℚ) : update_row alpha x x = x := by
  induction x with
  | nil => rfl
  | cons a l ih =>
    simp only [update_row, List.zipWith_cons_cons, sub_self, mul_zero, add_zero,
      List.cons.injEq]
    exact ⟨trivial, ih⟩

theorem update_row_sqDist (alpha : ℚ) : ∀ (w x : List ℚ), w.length = x.length →
    sqDist (update_row alpha x w) x = (1 - alpha) * (1 - alpha) * sqDist w x
  | [], [], _ => by simp [sqDist]
  | [], _ :: _, h => by simp at h
  | _ :: _, [], h => by simp at h
  | a :: w, b :: x, h => by
    have ih := update_row_sqDist alpha w x (by simpa using h)
    simp only [update_row, List.zipWith_cons_cons] at ih ⊢
    rw [sqDist_cons, sqDist_cons, ih]
    ring

/-! ### Claim theorem C7 -/

/-- C7: a single row updated by `w[k] += alpha * (x[k] - w[k])` with
`alpha ∈ (0,1)` strictly decreases its squared distance to `x`, unless the
row already equals `x`, in which case it is unchanged. -/
theorem som_C7 (alpha : ℚ) (x w : List ℚ) (h0 : 0 < alpha) (h1 : alpha < 1)
    (hlen : w.length = x.length) :
    (w ≠ x → sqDist (update_row alpha x w) x < sqDist w x) ∧
    (w = x → update_row alpha x w = w) := by
  constructor
  · intro hne
    have hq := update_row_sqDist alpha w x hlen
    have hpos : 0 < sqDist w x := by
      rcases lt_or_eq_of_le (sqDist_nonneg w x) with h | h
      · exact h
      · exact absurd ((sqDist_eq_zero_iff w x hlen).mp h.symm) hne
    have hfac : (1 - alpha) * (1 - alpha) < 1 := by nlinarith
    calc sqDist (update_row alpha x w) x
        = (1 - alpha) * (1 - alpha) * sqDist w x := hq
      _ < 1 * sqDist w x := mul_lt_mul_of_pos_right hfac hpos
      _ = sqDist w x := one_mul _
  · intro h
    rw [h]
    exact update_row_self alpha x

/-- Witness for C7 at a concrete input. -/
theorem som_C7_witness :
    (0 : ℚ) < 1 / 2 ∧ (1 / 2 : ℚ) < 1 ∧
    ([(0 : ℚ)] : List ℚ).length = ([(1 : ℚ)] : List ℚ).length ∧
    ((([(0 : ℚ)] : List ℚ) ≠ [(1 : ℚ)] →
        sqDist (update_row (1 / 2) [(1 : ℚ)] [(0 : ℚ)]) [(1 : ℚ)]
          < sqDist [(0 : ℚ)] [(1 : ℚ)]) ∧
     (([(0 : ℚ)] : List ℚ) = [(1 : ℚ)] →
        update_row (1 / 2) [(1 : ℚ)] [(0 : ℚ)] = [(0 : ℚ)])) :=
  ⟨by norm_num, by norm_num, by decide,
   som_C7 (1 / 2) [1] [0] (by norm_num) (by norm_num) (by decide)⟩

/-! ### Lemmas about the annealing loop -/

theorem tracer_run_iter (X : List (List ℚ)) (alpha_min : ℚ) :
    ∀ (fuel : ℕ) (s : SomState),
      (tracer_run X alpha_min fuel s).iter = s.iter + numPasses alpha_min fuel s.alpha := by
  intro fuel
  induction fuel with
  | zero => intro s; simp [tracer_run, numPasses]
  | succ n ih =>
    intro s
    by_cases h : s.alpha > alpha_min
    · simp only [tracer_run, numPasses]
      rw [if_pos h, if_pos h, ih (tracer_step X s)]
      show s.iter + 1 + numPasses alpha_min n (s.alpha - 1 / 100)
        = s.iter + (numPasses alpha_min n (s.alpha - 1 / 100) + 1)
      ring
    · simp only [tracer_run, numPasses]
      rw [if_neg h, if_neg h]
      simp

theorem tracer_run_alpha (X : List (List ℚ)) (alpha_min : ℚ) :
    ∀ (fuel : ℕ) (s : SomState),
      (tracer_run X alpha_min fuel s).alpha
        = s.alpha - (numPasses alpha_min fuel s.alpha : ℚ) / 100 := by
  intro fuel
  induction fuel with
  | zero => intro s; simp [tracer_run, numPasses]
  | succ n ih =>
    intro s
    by_cases h : s.alpha > alpha_min
    · simp only [tracer_run, numPasses]
      rw [if_pos h, if_pos h, ih (tracer_step X s)]
      show s.alpha - 1 / 100 - (numPasses alpha_min n (s.alpha - 1 / 100) : ℚ) / 100
        = s.alpha - ((numPasses alpha_min n (s.alpha - 1 / 100) + 1 : ℕ) : ℚ) / 100
      push_cast
      ring
    · simp only [tracer_run, numPasses]
      rw [if_neg h, if_neg h]
      simp

theorem numPasses_all (alpha_min : ℚ) :
    ∀ (fuel : ℕ) (alpha : ℚ), (∀ t < fuel, alpha_min < alpha - (t : ℚ) / 100) →
      numPasses alpha_min fuel alpha = fuel := by
  intro fuel
  induction fuel with
  | zero => intro alpha _; rfl
  | succ n ih =>
    intro alpha h
    have h0 : alpha_min < alpha := by simpa using h 0 (Nat.succ_pos n)
    simp only [numPasses]
    rw [if_pos h0, ih]
    intro t ht
    have ht1 := h (t + 1) (by omega)
    push_cast at ht1 ⊢
    linarith

theorem tracer_run_eq_iterate (X : List (List ℚ)) (alpha_min : ℚ) :
    ∀ (fuel : ℕ) (s : SomState),
      tracer_run X alpha_min fuel s
        = (tracer_step X)^[numPasses alpha_min fuel s.alpha] s := by
  intro fuel
  induction fuel with
  | zero => intro s; rfl
  | succ n ih =>
    intro s
    by_cases h : s.alpha > alpha_min
    · simp only [tracer_run, numPasses]
      rw [if_pos h, if_pos h, ih (tracer_step X s), Function.iterate_succ_apply]
      rfl
    · simp only [tracer_run, numPasses]
      rw [if_neg h, if_neg h]
      rfl

theorem iterate_iter (X : List (List ℚ)) (s : SomState) :
    ∀ t : ℕ, ((tracer_step X)^[t] s).iter = s.iter + t := by
  intro t
  induction t with
  | zero => simp
  | succ n ih =>
    rw [Function.iterate_succ_apply']
    show ((tracer_step X) ((tracer_step X)^[n] s)).iter = s.iter + (n + 1)
    simp only [tracer_step]
    omega

theorem iterate_R_succ (X : List (List ℚ)) (s : SomState) (t : ℕ) :
    ((tracer_step X)^[t + 1] s).R = radius_step (s.iter + t) (((tracer_step X)^[t] s).R) := by
  rw [Function.iterate_succ_apply']
  show ((tracer_step X) ((tracer_step X)^[t] s)).R = _
  simp only [tracer_step]
  rw [iterate_iter]

theorem radius_step_le (i : ℕ) (R : ℤ) : radius_step i R ≤ R := by
  unfold radius_step
  split <;> omega

theorem radius_step_nonneg (i : ℕ) (R : ℤ) (h : 0 ≤ R) : 0 ≤ radius_step i R := by
  unfold radius_step
  split <;> omega

theorem radius_step_ge_one (i : ℕ) (R : ℤ) (h : 1 ≤ R) : 1 ≤ radius_step i R := by
  unfold radius_step
  split <;> omega

theorem iterate_R_nonneg (X : List (List ℚ)) (s : SomState) (h : 0 ≤ s.R) :
    ∀ t : ℕ, 0 ≤ ((tracer_step X)^[t] s).R := by
  intro t
  induction t with
  | zero => simpa using h
  | succ n ih =>
    rw [iterate_R_succ]
    exact radius_step_nonneg _ _ ih

theorem iterate_R_ge_one (X : List (List ℚ)) (s : SomState) (h : 1 ≤ s.R) :
    ∀ t : ℕ, 1 ≤ ((tracer_step X)^[t] s).R := by
  intro t
  induction t with
  | zero => simpa using h
  | succ n ih =>
    rw [iterate_R_succ]
    exact radius_step_ge_one _ _ ih

/-! ### Claim theorems C5, C6, C9, C10 -/

/-- C5: the training loop starts at `alpha = 1`, subtracts `0.01` per
outer pass, and runs only while `alpha > alpha_min`; with
`alpha_min = 0.1` it executes exactly 90 outer passes (ending with
`alpha = 0.1`), and with `alpha_min = 0.01` exactly 99 passes (ending
with `alpha = 0.01`). -/
theorem som_C5 (X W : List (List ℚ)) :
    (kohonen_som_tracer X W (1 / 10)).iter = 90 ∧
    (kohonen_som_tracer X W (1 / 10)).alpha = 1 / 10 ∧
    (kohonen_som_tracer X W (1 / 100)).iter = 99 ∧
    (kohonen_som_tracer X W (1 / 100)).alpha = 1 / 100 := by
  have hf1 : outer_fuel 1 (1 / 10) = 90 := by
    unfold outer_fuel
    norm_num
    decide
  have hf2 : outer_fuel 1 (1 / 100) = 99 := by
    unfold outer_fuel
    norm_num
    decide
  have hn1 : numPasses (1 / 10) 90 1 = 90 := by
    apply numPasses_all
    intro t ht
    have hc : (t : ℚ) < 90 := by exact_mod_cast ht
    linarith
  have hn2 : numPasses (1 / 100) 99 1 = 99 := by
    apply numPasses_all
    intro t ht
    have hc : (t : ℚ) < 99 := by exact_mod_cast ht
    linarith
  refine ⟨?_, ?_, ?_, ?_⟩
  · unfold kohonen_som_tracer
    rw [hf1, tracer_run_iter]
    show 0 + numPasses (1 / 10) 90 (1 : ℚ) = 90
    rw [hn1]
  · unfold kohonen_som_tracer
    rw [hf1, tracer_run_alpha]
    show (1 : ℚ) - (numPasses (1 / 10) 90 (1 : ℚ) : ℚ) / 100 = 1 / 10
    rw [hn1]
    norm_num
  · unfold kohonen_som_tracer
    rw [hf2, tracer_run_iter]
    show 0 + numPasses (1 / 100) 99 (1 : ℚ) = 99
    rw [hn2]
  · unfold kohonen_som_tracer
    rw [hf2, tracer_run_alpha]
    show (1 : ℚ) - (numPasses (1 / 100) 99 (1 : ℚ) : ℚ) / 100 = 1 / 100
    rw [hn2]
    norm_num

/-- C6: along the iterated outer-loop body, the radius starts at
`num_out >> 2`, is decremented by exactly 1 after pass `t` precisely when
`t % 10 = 0` and `R > 1`, is monotonically non-increasing, never negative,
and never drops below 1 when `num_out ≥ 4`; every training run is such an
iterate of the loop body. -/
theorem som_C6 (X W : List (List ℚ)) (t : ℕ) :
    (init_state W).R = ((W.length >>> 2 : ℕ) : ℤ) ∧
    ((tracer_step X)^[t + 1] (init_state W)).R
      = (if t % 10 = 0 ∧ 1 < ((tracer_step X)^[t] (init_state W)).R
         then ((tracer_step X)^[t] (init_state W)).R - 1
         else ((tracer_step X)^[t] (init_state W)).R) ∧
    (((tracer_step X)^[t + 1] (init_state W)).R
        = ((tracer_step X)^[t] (init_state W)).R - 1
      ↔ t % 10 = 0 ∧ 1 < ((tracer_step X)^[t] (init_state W)).R) ∧
    ((tracer_step X)^[t + 1] (init_state W)).R ≤ ((tracer_step X)^[t] (init_state W)).R ∧
    0 ≤ ((tracer_step X)^[t] (init_state W)).R ∧
    (4 ≤ W.length → 1 ≤ ((tracer_step X)^[t] (init_state W)).R) ∧
    ∀ alpha_min : ℚ, ∃ n : ℕ,
      kohonen_som_tracer X W alpha_min = (tracer_step X)^[n] (init_state W) := by
  have hiter0 : (init_state W).iter = 0 := rfl
  have hstep : ((tracer_step X)^[t + 1] (init_state W)).R
      = radius_step t (((tracer_step X)^[t] (init_state W)).R) := by
    rw [iterate_R_succ, hiter0, Nat.zero_add]
  refine ⟨rfl, ?_, ?_, ?_, ?_, ?_, ?_⟩
  · rw [hstep]
    simp only [radius_step]
  · rw [hstep]
    unfold radius_step
    split <;> rename_i hc <;> omega
  · rw [hstep]
    exact radius_step_le _ _
  · exact iterate_R_nonneg X (init_state W) (Int.natCast_nonneg _) t
  · intro h4
    refine iterate_R_ge_one X (init_state W) ?_ t
    show (1 : ℤ) ≤ ((W.length >>> 2 : ℕ) : ℤ)
    have hdiv : W.length >>> 2 = W.length / 4 := by
      simpa using Nat.shiftRight_eq_div_pow W.length 2
    omega
  · intro alpha_min
    exact ⟨numPasses alpha_min (outer_fuel 1 alpha_min) (init_state W).alpha,
      tracer_run_eq_iterate X alpha_min (outer_fuel 1 alpha_min) (init_state W)⟩

/-- Witness for C6 at a concrete input with `num_out = 4` and `t = 0`. -/
theorem som_C6_witness :
    (init_state [[(0 : ℚ)], [0], [0], [0]]).R
        = ((([[(0 : ℚ)], [0], [0], [0]] : List (List ℚ)).length >>> 2 : ℕ) : ℤ) ∧
    ((tracer_step [[(1 : ℚ)]])^[0 + 1] (init_state [[(0 : ℚ)], [0], [0], [0]])).R
      = (if 0 % 10 = 0 ∧
            1 < ((tracer_step [[(1 : ℚ)]])^[0] (init_state [[(0 : ℚ)], [0], [0], [0]])).R
         then ((tracer_step [[(1 : ℚ)]])^[0] (init_state [[(0 : ℚ)], [0], [0], [0]])).R - 1
         else ((tracer_step [[(1 : ℚ)]])^[0] (init_state [[(0 : ℚ)], [0], [0], [0]])).R) ∧
    (((tracer_step [[(1 : ℚ)]])^[0 + 1] (init_state [[(0 : ℚ)], [0], [0], [0]])).R
        = ((tracer_step [[(1 : ℚ)]])^[0] (init_state [[(0 : ℚ)], [0], [0], [0]])).R - 1
      ↔ 0 % 10 = 0 ∧
          1 < ((tracer_step [[(1 : ℚ)]])^[0] (init_state [[(0 : ℚ)], [0], [0], [0]])).R) ∧
    ((tracer_step [[(1 : ℚ)]])^[0 + 1] (init_state [[(0 : ℚ)], [0], [0], [0]])).R
      ≤ ((tracer_step [[(1 : ℚ)]])^[0] (init_state [[(0 : ℚ)], [0], [0], [0]])).R ∧
    0 ≤ ((tracer_step [[(1 : ℚ)]])^[0] (init_state [[(0 : ℚ)], [0], [0], [0]])).R ∧
    (4 ≤ ([[(0 : ℚ)], [0], [0], [0]] : List (List ℚ)).length →
      1 ≤ ((tracer_step [[(1 : ℚ)]])^[0] (init_state [[(0 : ℚ)], [0], [0], [0]])).R) ∧
    ∀ alpha_min : ℚ, ∃ n : ℕ,
      kohonen_som_tracer [[(1 : ℚ)]] [[(0 : ℚ)], [0], [0], [0]] alpha_min
        = (tracer_step [[(1 : ℚ)]])^[n] (init_state [[(0 : ℚ)], [0], [0], [0]]) :=
  som_C6 [[(1 : ℚ)]] [[(0 : ℚ)], [0], [0], [0]] 0

/-- C9: training is deterministic — two runs on the same inputs yield the
same final state — and each outer pass consumes the samples in fixed
input order, first sample first, with no shuffling. -/
theorem som_C9 (X : List (List ℚ)) (W : List (List ℚ)) (alpha_min : ℚ) :
    (∀ s1 s2, s1 = kohonen_som_tracer X W alpha_min →
       s2 = kohonen_som_tracer X W alpha_min → s1 = s2) ∧
    (∀ (W0 : List (List ℚ)) (alpha : ℚ) (R : ℤ), tracer_pass [] W0 alpha R = W0) ∧
    (∀ (x : List ℚ) (rest : List (List ℚ)) (W0 : List (List ℚ)) (alpha : ℚ) (R : ℤ),
       tracer_pass (x :: rest) W0 alpha R
         = tracer_pass rest (update_weights x W0 alpha R) alpha R) := by
  refine ⟨?_, ?_, ?_⟩
  · intro s1 s2 h1 h2
    rw [h1, h2]
  · intro W0 alpha R
    rfl
  · intro x rest W0 alpha R
    rfl

/-- Witness for C9 at a concrete input. -/
theorem som_C9_witness :
    (∀ s1 s2, s1 = kohonen_som_tracer [[(1 : ℚ), 1]] [[(0 : ℚ), 0], [4, 4]] (1 / 2) →
       s2 = kohonen_som_tracer [[(1 : ℚ), 1]] [[(0 : ℚ), 0], [4, 4]] (1 / 2) → s1 = s2) ∧
    (∀ (W0 : List (List ℚ)) (alpha : ℚ) (R : ℤ), tracer_pass [] W0 alpha R = W0) ∧
    (∀ (x : List ℚ) (rest : List (List ℚ)) (W0 : List (List ℚ)) (alpha : ℚ) (R : ℤ),
       tracer_pass (x :: rest) W0 alpha R
         = tracer_pass rest (update_weights x W0 alpha R) alpha R) :=
  som_C9 [[(1 : ℚ), 1]] [[(0 : ℚ), 0], [4, 4]] (1 / 2)

/-- C10: with `alpha_min ≥ 1` the loop guard `alpha > alpha_min` fails at
the initial `alpha = 1`, so the tracer executes zero outer passes and
returns the weight matrix unchanged. -/
theorem som_C10 (X W : List (List ℚ)) (alpha_min : ℚ) (h : 1 ≤ alpha_min) :
    kohonen_som_tracer X W alpha_min = init_state W ∧
    (kohonen_som_tracer X W alpha_min).W = W ∧
    (kohonen_som_tracer X W alpha_min).iter = 0 := by
  have hrun : kohonen_som_tracer X W alpha_min = init_state W := by
    unfold kohonen_som_tracer
    cases hf : outer_fuel 1 alpha_min with
    | zero => rfl
    | succ n =>
      show tracer_run X alpha_min (n + 1) (init_state W) = init_state W
      simp only [tracer_run]
      rw [if_neg ?_]
      show ¬((init_state W).alpha > alpha_min)
      exact not_lt.mpr h
  refine ⟨hrun, ?_, ?_⟩
  · rw [hrun]
    rfl
  · rw [hrun]
    rfl

/-- Witness for C10 at a concrete input with `alpha_min = 2`. -/
theorem som_C10_witness :
    (1 : ℚ) ≤ 2 ∧
    (kohonen_som_tracer [[(1 : ℚ), 1]] [[(0 : ℚ), 0], [4, 4]] 2
        = init_state [[(0 : ℚ), 0], [4, 4]] ∧
     (kohonen_som_tracer [[(1 : ℚ), 1]] [[(0 : ℚ), 0], [4, 4]] 2).W
        = [[(0 : ℚ), 0], [4, 4]] ∧
     (kohonen_som_tracer [[(1 : ℚ), 1]] [[(0 : ℚ), 0], [4, 4]] 2).iter = 0) :=
  ⟨by norm_num, som_C10 [[(1 : ℚ), 1]] [[(0 : ℚ), 0], [4, 4]] 2 (by norm_num)⟩

end KohonenSom
